import Mathlib

/-!
Verification development for the keyword-to-Wikidata resolution engine of
`hall-api-test-db-mysql` (files `wikidata/Neo4j-wikidata_v2.py` and
`wikidata/Neo4j-wikidata.py`).

Strings are modelled as lists of characters (`Str`).  Network responses
(Wikidata search / entity-detail payloads) are modelled as oracle functions
passed explicitly to every operation that performs a request in the Python
source.  Floating-point scores are modelled as rationals; the weight `0.6`
becomes `3/5` and the third-party fuzzy-similarity routine
(`rapidfuzz.fuzz.token_sort_ratio`) is an oracle parameter `sim`.
-/

/-- Strings as lists of characters (Python `str`). -/
abbrev Str := List Char

/-- Python whitespace (the character class `\s` with `re.UNICODE`, which is
also the set stripped by `str.strip()`). -/
def isPySpace (c : Char) : Bool :=
  c = ' ' || c = '\t' || c = '\n' || c = '\r' || c = '\x0b' || c = '\x0c' ||
  ('\x1c' ≤ c && c ≤ '\x1f') || c = '\x85' || c = '\xa0' ||
  c = ' ' || (' ' ≤ c && c ≤ ' ') ||
  c = ' ' || c = ' ' || c = ' ' || c = ' ' || c = '　'

/-- The non-breaking space character replaced by `normalize_kw`. -/
def nbspChar : Char := '\xa0'

/-- The byte-order mark removed by `normalize_kw`. -/
def bomChar : Char := '﻿'

/-- NBSP-to-space replacement followed by BOM removal from `normalize_kw`. -/
def replaceSpecial (s : Str) : Str :=
  (s.map (fun c => if c = nbspChar then ' ' else c)).filter (fun c => c ≠ bomChar)

/-- Python `str.strip()`: drop leading and trailing whitespace. -/
def stripWs (s : Str) : Str :=
  ((s.dropWhile isPySpace).reverse.dropWhile isPySpace).reverse

/-- The regex substitution collapsing every maximal whitespace run into one
space.  The boolean flag records whether the previous character was part of a
whitespace run. -/
def collapseWs : Bool → Str → Str
  | _, [] => []
  | prev, c :: cs =>
    if isPySpace c then
      if prev then collapseWs true cs else ' ' :: collapseWs true cs
    else c :: collapseWs false cs

/-- The characters stripped at both ends by the final strip of `normalize_kw`
(semicolon, comma, space). -/
def isSepChar (c : Char) : Bool := c = ';' || c = ',' || c = ' '

/-- The final two-sided strip of `normalize_kw`. -/
def stripSep (s : Str) : Str :=
  ((s.dropWhile isSepChar).reverse.dropWhile isSepChar).reverse

/-- `normalize_kw` from the source: empty-guard, NBSP/BOM replacement,
whitespace strip, whitespace-run collapse, then strip of `;`, `,`, ` `. -/
def normalize_kw (s : Str) : Str :=
  if s = [] then []
  else stripSep (collapseWs false (stripWs (replaceSpecial s)))

/-- Python `str.lower()` (ASCII case folding in this model). -/
def lowerStr (s : Str) : Str := s.map Char.toLower

/-- Python `endswith` as a boolean on character lists. -/
def endsWithB (l suf : Str) : Bool := List.isPrefixOf suf.reverse l.reverse

/-- `singularize_en` from the source: normalize, then heuristic suffix
stripping with the suffix test performed on the lowercased copy. -/
def singularize_en (word : Str) : Str :=
  let w := normalize_kw word
  let wl := lowerStr w
  if 3 < w.length ∧ endsWithB wl ['i', 'e', 's'] = true then
    w.take (w.length - 3) ++ ['y']
  else if 3 < w.length ∧ endsWithB wl ['s', 'e', 's'] = true then
    w.take (w.length - 2)
  else if 2 < w.length ∧ endsWithB wl ['s'] = true ∧ endsWithB wl ['s', 's'] = false then
    w.take (w.length - 1)
  else w

/-- Characters kept inside a token by `tokenize` (word characters or hyphen;
ASCII model of the regex class). -/
def isTokenChar (c : Char) : Bool := c.isAlphanum || c = '_' || c = '-'

/-- Run splitter behind `tokenize`: the accumulator holds the current token
reversed. -/
def splitToks (acc : Str) : Str → List Str
  | [] => if acc = [] then [] else [acc.reverse]
  | c :: cs =>
    if isTokenChar c then splitToks (c :: acc) cs
    else if acc = [] then splitToks [] cs
    else acc.reverse :: splitToks [] cs

/-- `tokenize` from the source: lowercase, split on runs of non-word,
non-hyphen characters, drop empty tokens. -/
def tokenize (text : Str) : List Str := splitToks [] (lowerStr text)

/-! ### Properties of the text normalizer -/

/-- No two consecutive characters of `l` are both whitespace. -/
def noTwoWs (l : Str) : Prop :=
  l.Chain' (fun a b => ¬(isPySpace a = true ∧ isPySpace b = true))

/-- Every whitespace character occurring in `l` is a plain space. -/
def wsOnlySpace (l : Str) : Prop := ∀ c ∈ l, isPySpace c = true → c = ' '

theorem mem_replaceSpecial {s : Str} {c : Char} (h : c ∈ replaceSpecial s) :
    c ≠ nbspChar ∧ c ≠ bomChar := by
  unfold replaceSpecial at h
  have h2 := List.mem_filter.mp h
  refine ⟨?_, by simpa using h2.2⟩
  rcases List.mem_map.mp h2.1 with ⟨d, _, hd⟩
  by_cases hdn : d = nbspChar
  · simp [hdn] at hd
    subst hd
    decide
  · simp [hdn] at hd
    subst hd
    exact hdn

theorem replaceSpecial_eq_self {s : Str} (h : ∀ c ∈ s, c ≠ nbspChar ∧ c ≠ bomChar) :
    replaceSpecial s = s := by
  unfold replaceSpecial
  have hm : s.map (fun c => if c = nbspChar then ' ' else c) = s.map id :=
    List.map_congr_left (fun c hc => if_neg (h c hc).1)
  rw [hm, List.map_id]
  exact List.filter_eq_self.mpr (fun c hc => by simpa using (h c hc).2)

theorem head?_dropWhile {p : Char → Bool} :
    ∀ {l : Str} {c : Char}, (l.dropWhile p).head? = some c → p c = false := by
  intro l
  induction l with
  | nil => intro c h; simp at h
  | cons a as ih =>
    intro c h
    by_cases hp : p a
    · rw [List.dropWhile_cons_of_pos hp] at h
      exact ih h
    · rw [List.dropWhile_cons_of_neg hp] at h
      simp at h
      subst h
      simpa using hp

theorem dropWhile_eq_self {p : Char → Bool} {l : Str}
    (h : ∀ c, l.head? = some c → p c = false) : l.dropWhile p = l := by
  cases l with
  | nil => rfl
  | cons a as => exact List.dropWhile_cons_of_neg (by simp [h a rfl])

theorem getLast?_dropWhile {p : Char → Bool} :
    ∀ {l : Str}, l.dropWhile p ≠ [] → (l.dropWhile p).getLast? = l.getLast? := by
  intro l
  induction l with
  | nil => intro h; simp at h
  | cons a as ih =>
    intro h
    by_cases hp : p a
    · rw [List.dropWhile_cons_of_pos hp] at h ⊢
      rw [ih h]
      cases as with
      | nil => simp at h
      | cons b bs => rw [List.getLast?_cons_cons]
    · rw [List.dropWhile_cons_of_neg hp]

theorem mem_collapseWs {c : Char} :
    ∀ {b : Bool} {l : Str}, c ∈ collapseWs b l → c = ' ' ∨ c ∈ l := by
  intro b l
  induction l generalizing b with
  | nil => intro h; simp [collapseWs] at h
  | cons a as ih =>
    intro h
    unfold collapseWs at h
    by_cases ha : isPySpace a
    · simp [ha] at h
      by_cases hb : b
      · subst hb
        simp at h
        rcases ih h with h' | h'
        · exact Or.inl h'
        · exact Or.inr (List.mem_cons_of_mem _ h')
      · simp [hb] at h
        rcases h with h' | h'
        · exact Or.inl h'
        · rcases ih h' with h'' | h''
          · exact Or.inl h''
          · exact Or.inr (List.mem_cons_of_mem _ h'')
    · simp [ha] at h
      rcases h with h' | h'
      · exact Or.inr (by simp [h'])
      · rcases ih h' with h'' | h''
        · exact Or.inl h''
        · exact Or.inr (List.mem_cons_of_mem _ h'')

theorem wsOnlySpace_collapseWs : ∀ {b : Bool} {l : Str}, wsOnlySpace (collapseWs b l) := by
  intro b l
  induction l generalizing b with
  | nil => intro c hc; simp [collapseWs] at hc
  | cons a as ih =>
    intro c hc hws
    unfold collapseWs at hc
    by_cases ha : isPySpace a
    · simp [ha] at hc
      by_cases hb : b
      · subst hb
        simp at hc
        exact ih c hc hws
      · simp [hb] at hc
        rcases hc with h' | h'
        · exact h'
        · exact ih c h' hws
    · simp [ha] at hc
      rcases hc with h' | h'
      · subst h'
        rw [hws] at ha
        simp at ha
      · exact ih c h' hws

/-- Head of a list fails `isPySpace` (vacuous for the empty list). -/
def headNotWs (l : Str) : Prop := ∀ c, l.head? = some c → isPySpace c = false

theorem collapseWs_cons_ws_true {a : Char} {as : Str} (ha : isPySpace a = true) :
    collapseWs true (a :: as) = collapseWs true as := by
  simp [collapseWs, ha]

theorem collapseWs_cons_ws_false {a : Char} {as : Str} (ha : isPySpace a = true) :
    collapseWs false (a :: as) = ' ' :: collapseWs true as := by
  simp [collapseWs, ha]

theorem collapseWs_cons_not {a : Char} {as : Str} (ha : isPySpace a = false) (b : Bool) :
    collapseWs b (a :: as) = a :: collapseWs false as := by
  simp [collapseWs, ha]

theorem noTwoWs_collapseWs :
    ∀ {l : Str}, (noTwoWs (collapseWs true l) ∧ headNotWs (collapseWs true l)) ∧
      noTwoWs (collapseWs false l) := by
  intro l
  induction l with
  | nil => exact ⟨⟨List.chain'_nil, fun c hc => by simp [collapseWs] at hc⟩, List.chain'_nil⟩
  | cons a as ih =>
    by_cases ha : isPySpace a
    · refine ⟨⟨?_, ?_⟩, ?_⟩
      · rw [collapseWs_cons_ws_true ha]
        exact ih.1.1
      · rw [collapseWs_cons_ws_true ha]
        exact ih.1.2
      · rw [collapseWs_cons_ws_false ha]
        refine List.chain'_cons'.mpr ⟨?_, ih.1.1⟩
        intro y hy
        have hns : isPySpace y = false := ih.1.2 y hy
        intro hcon
        rw [hns] at hcon
        exact absurd hcon.2 (by simp)
    · have ha' : isPySpace a = false := by simpa using ha
      have hmain : noTwoWs (a :: collapseWs false as) := by
        refine List.chain'_cons'.mpr ⟨?_, ih.2⟩
        intro y _ hcon
        rw [ha'] at hcon
        exact absurd hcon.1 (by simp)
      refine ⟨⟨?_, ?_⟩, ?_⟩
      · rw [collapseWs_cons_not ha' true]; exact hmain
      · rw [collapseWs_cons_not ha' true]
        intro c hc
        simp at hc
        rw [← hc]
        exact ha'
      · rw [collapseWs_cons_not ha' false]; exact hmain

theorem collapseWs_eq_self :
    ∀ {l : Str}, wsOnlySpace l → noTwoWs l →
      (headNotWs l → collapseWs true l = l) ∧ collapseWs false l = l := by
  intro l
  induction l with
  | nil => exact fun _ _ => ⟨fun _ => rfl, rfl⟩
  | cons a as ih =>
    intro hws hnt
    have hws' : wsOnlySpace as := fun c hc => hws c (List.mem_cons_of_mem _ hc)
    have hnt' : noTwoWs as := hnt.tail
    by_cases ha : isPySpace a
    · have haSp : a = ' ' := hws a (List.mem_cons_self _ _) ha
      have hnext : headNotWs as := by
        intro c hc
        cases as with
        | nil => simp at hc
        | cons b bs =>
          simp at hc
          have hcc := List.chain'_cons.mp hnt
          subst hc
          by_contra hb
          exact hcc.1 ⟨ha, by simpa using hb⟩
      constructor
      · intro hh
        have := hh a rfl
        rw [ha] at this
        simp at this
      · rw [collapseWs_cons_ws_false ha, haSp]
        rw [(ih hws' hnt').1 hnext]
    · have ha' : isPySpace a = false := by simpa using ha
      have htail : collapseWs false as = as := (ih hws' hnt').2
      exact ⟨fun _ => by rw [collapseWs_cons_not ha' true, htail],
        by rw [collapseWs_cons_not ha' false, htail]⟩

theorem noTwoWs_dropWhile {p : Char → Bool} {l : Str} (h : noTwoWs l) :
    noTwoWs (l.dropWhile p) := h.suffix (List.dropWhile_suffix p)

theorem noTwoWs_reverse {l : Str} (h : noTwoWs l) : noTwoWs l.reverse := by
  unfold noTwoWs at h ⊢
  rw [List.chain'_reverse]
  exact List.Chain'.imp (fun a b hab hba => hab ⟨hba.2, hba.1⟩) h

theorem mem_stripSep {l : Str} {c : Char} (h : c ∈ stripSep l) : c ∈ l := by
  unfold stripSep at h
  rw [List.mem_reverse] at h
  have h1 := (List.dropWhile_suffix isSepChar).mem h
  rw [List.mem_reverse] at h1
  exact (List.dropWhile_suffix isSepChar).mem h1

theorem mem_stripWs {l : Str} {c : Char} (h : c ∈ stripWs l) : c ∈ l := by
  unfold stripWs at h
  rw [List.mem_reverse] at h
  have h1 := (List.dropWhile_suffix isPySpace).mem h
  rw [List.mem_reverse] at h1
  exact (List.dropWhile_suffix isPySpace).mem h1

theorem head?_stripSep {l : Str} {c : Char} (h : (stripSep l).head? = some c) :
    isSepChar c = false := by
  unfold stripSep at h
  rw [List.head?_reverse] at h
  by_cases hne : (l.dropWhile isSepChar).reverse.dropWhile isSepChar = []
  · rw [hne] at h
    simp at h
  · rw [getLast?_dropWhile hne, List.getLast?_reverse] at h
    exact head?_dropWhile h

theorem getLast?_stripSep {l : Str} {c : Char} (h : (stripSep l).getLast? = some c) :
    isSepChar c = false := by
  unfold stripSep at h
  rw [List.getLast?_reverse] at h
  exact head?_dropWhile h

theorem noTwoWs_stripSep {l : Str} (h : noTwoWs l) : noTwoWs (stripSep l) := by
  unfold stripSep
  exact noTwoWs_reverse (noTwoWs_dropWhile (noTwoWs_reverse (noTwoWs_dropWhile h)))

/-- Characterization of strings left unchanged by `normalize_kw`. -/
def NormFixed (l : Str) : Prop :=
  (∀ c ∈ l, c ≠ nbspChar ∧ c ≠ bomChar) ∧ wsOnlySpace l ∧ noTwoWs l ∧
  (∀ c, l.head? = some c → isSepChar c = false) ∧
  (∀ c, l.getLast? = some c → isSepChar c = false)

theorem normFixed_normalize_kw (s : Str) : NormFixed (normalize_kw s) := by
  by_cases hs : s = []
  · subst hs
    refine ⟨?_, ?_, ?_, ?_, ?_⟩ <;> simp [normalize_kw, noTwoWs, wsOnlySpace]
  · have hout : normalize_kw s = stripSep (collapseWs false (stripWs (replaceSpecial s))) := by
      simp [normalize_kw, hs]
    rw [hout]
    refine ⟨?_, ?_, ?_, ?_, ?_⟩
    · intro c hc
      have hc1 := mem_stripSep hc
      rcases mem_collapseWs hc1 with h' | h'
      · subst h'
        exact ⟨by decide, by decide⟩
      · exact mem_replaceSpecial (mem_stripWs h')
    · intro c hc hws
      exact wsOnlySpace_collapseWs c (mem_stripSep hc) hws
    · exact noTwoWs_stripSep noTwoWs_collapseWs.2
    · exact fun c hc => head?_stripSep hc
    · exact fun c hc => getLast?_stripSep hc

theorem normalize_kw_of_normFixed {l : Str} (h : NormFixed l) : normalize_kw l = l := by
  by_cases hl : l = []
  · subst hl
    rfl
  · obtain ⟨hnb, hws, hnt, hhd, hlast⟩ := h
    have hheadNW : ∀ c, l.head? = some c → isPySpace c = false := by
      intro c hc
      by_contra hcon
      have hsp : c = ' ' := hws c (List.mem_of_mem_head? hc) (by simpa using hcon)
      have := hhd c hc
      rw [hsp] at this
      simp [isSepChar] at this
    have hlastNW : ∀ c, l.getLast? = some c → isPySpace c = false := by
      intro c hc
      by_contra hcon
      have hsp : c = ' ' := hws c (List.mem_of_mem_getLast? hc) (by simpa using hcon)
      have := hlast c hc
      rw [hsp] at this
      simp [isSepChar] at this
    have h1 : replaceSpecial l = l := replaceSpecial_eq_self hnb
    have h2 : stripWs l = l := by
      unfold stripWs
      rw [dropWhile_eq_self hheadNW]
      rw [dropWhile_eq_self (fun c hc => hlastNW c (by rwa [List.head?_reverse] at hc))]
      exact List.reverse_reverse l
    have h3 : collapseWs false l = l := (collapseWs_eq_self hws hnt).2
    have h4 : stripSep l = l := by
      unfold stripSep
      rw [dropWhile_eq_self hhd]
      rw [dropWhile_eq_self (fun c hc => hlast c (by rwa [List.head?_reverse] at hc))]
      exact List.reverse_reverse l
    simp only [normalize_kw, hl, if_neg]
    rw [h1, h2, h3, h4]
    simp

/-- **C10** (confirmed).  `normalize_kw` is idempotent, and every output is a
fixed point: it contains no non-breaking space or BOM character, no run of
more than one consecutive whitespace character, and neither starts nor ends
with a space, semicolon or comma. -/
theorem normalize_kw_idempotent_and_fixed (s : Str) :
    normalize_kw (normalize_kw s) = normalize_kw s ∧
    (∀ c ∈ normalize_kw s, c ≠ nbspChar ∧ c ≠ bomChar) ∧
    noTwoWs (normalize_kw s) ∧
    (∀ c, (normalize_kw s).head? = some c → ¬(c = ' ' ∨ c = ';' ∨ c = ',')) ∧
    (∀ c, (normalize_kw s).getLast? = some c → ¬(c = ' ' ∨ c = ';' ∨ c = ',')) := by
  have hA := normFixed_normalize_kw s
  refine ⟨normalize_kw_of_normFixed hA, hA.1, hA.2.2.1, ?_, ?_⟩
  · intro c hc hcon
    have := hA.2.2.2.1 c hc
    rcases hcon with h' | h' | h' <;> (subst h'; simp [isSepChar] at this)
  · intro c hc hcon
    have := hA.2.2.2.2 c hc
    rcases hcon with h' | h' | h' <;> (subst h'; simp [isSepChar] at this)

/-! ### Candidate scoring (`Neo4j-wikidata_v2.py`, scorer section) -/

/-- Python `sep.join(items)`. -/
def joinSep (sep : Str) : List Str → Str
  | [] => []
  | [x] => x
  | x :: y :: ys => x ++ sep ++ joinSep sep (y :: ys)

/-- A Wikidata search hit as handled by the resolver: the lightweight fields
plus the fields the matching stages attach before returning it. -/
structure Candidate where
  id : Str
  label : Option Str
  description : Option Str
  aliases : List Str
  language : Str
  label_similarity : ℚ
  match_score : ℚ
  stage : Option Str

/-- `best_label_and_aliases_str`: label and aliases joined and stripped. -/
def best_label_and_aliases_str (c : Candidate) : Str :=
  stripWs ((c.label.getD []) ++ ' ' :: joinSep [' '] c.aliases)

/-- `label_similarity`: the fuzzy token-sort ratio (oracle `sim`) applied to
the normalized keyword and normalized label+aliases blob. -/
def label_similarity (sim : Str → Str → ℚ) (keyword : Str) (c : Candidate) : ℚ :=
  sim (normalize_kw keyword) (normalize_kw (best_label_and_aliases_str c))

/-- The candidate context blob of `context_overlap`: label, description and
space-joined aliases, joined by spaces. -/
def candidate_context_str (c : Candidate) : Str :=
  joinSep [' '] [c.label.getD [], c.description.getD [], joinSep [' '] c.aliases]

/-- `context_overlap` (v2 variant with keyword-token exclusion). -/
def context_overlap (keyword context : Str) (c : Candidate) : ℕ :=
  let ctx_tokens := (tokenize (normalize_kw context)).toFinset
  let keyword_tokens := (tokenize (normalize_kw keyword)).toFinset
  let cand_tokens := ((tokenize (candidate_context_str c)).filter
      (fun t => decide (t ∉ keyword_tokens))).toFinset
  (ctx_tokens ∩ cand_tokens).card

/-- `total_score`: exact-label bonus plus context overlap plus weighted fuzzy
similarity (`0.6` modelled as `3/5`). -/
def total_score (sim : Str → Str → ℚ) (keyword context : Str) (c : Candidate)
    (allow_exact_bonus : Bool) : ℚ :=
  let lbl := lowerStr (normalize_kw (c.label.getD []))
  let kw_norm := lowerStr (normalize_kw keyword)
  let kw_sing := lowerStr (singularize_en kw_norm)
  let exact_bonus : ℚ :=
    if allow_exact_bonus = true ∧ (lbl = kw_norm ∨ lbl = kw_sing) then 50 else 0
  exact_bonus + (context_overlap keyword context c : ℚ) +
    3 / 5 * label_similarity sim keyword c

/-- **C1** (corrected: the label comparison deciding the exact bonus is
case-insensitive — both sides are lowercased after normalization, which the
claim's wording omits).  With that amendment, for every keyword, context,
candidate and similarity oracle the composite score is exactly
`exactBonus + contextOverlap + 3/5 · labelSimilarity`, with
`exactBonus = 50` iff the lowercased normalized candidate label equals the
lowercased normalized keyword or its lowercased singularized form. -/
theorem total_score_formula (sim : Str → Str → ℚ) (keyword context : Str) (c : Candidate) :
    total_score sim keyword context c true =
      (if lowerStr (normalize_kw (c.label.getD [])) = lowerStr (normalize_kw keyword) ∨
          lowerStr (normalize_kw (c.label.getD [])) =
            lowerStr (singularize_en (lowerStr (normalize_kw keyword)))
        then (50 : ℚ) else 0)
      + (context_overlap keyword context c : ℚ)
      + 3 / 5 * label_similarity sim keyword c := by
  unfold total_score
  simp

/-- Constant-zero similarity oracle used for concrete evaluations. -/
def simZero : Str → Str → ℚ := fun _ _ => 0

/-- Concrete candidate whose label is `cat`. -/
def candCat : Candidate :=
  ⟨['Q', '1'], some ['c', 'a', 't'], none, [], ['e', 'n'], 0, 0, none⟩

/-- **C1** counterexample to the claim as stated: for keyword `Cat` and a
candidate labelled `cat`, the code awards the exact bonus (score 50), while
the claimed formula — with the bonus conditioned on equality of the
*normalized* strings, which are `Cat` and `cat` — yields 0. -/
theorem total_score_claimed_formula_counterexample :
    total_score simZero ['C', 'a', 't'] [] candCat true = 50 ∧
    (if normalize_kw (candCat.label.getD []) = normalize_kw ['C', 'a', 't'] ∨
        normalize_kw (candCat.label.getD []) = singularize_en (normalize_kw ['C', 'a', 't'])
      then (50 : ℚ) else 0)
      + (context_overlap ['C', 'a', 't'] [] candCat : ℚ)
      + 3 / 5 * label_similarity simZero ['C', 'a', 't'] candCat = 0 := by
  have hov : context_overlap ['C', 'a', 't'] [] candCat = 0 := by decide
  have hsim : label_similarity simZero ['C', 'a', 't'] candCat = 0 := rfl
  constructor
  · show (let lbl := lowerStr (normalize_kw (candCat.label.getD []));
      let kw_norm := lowerStr (normalize_kw ['C', 'a', 't']);
      let kw_sing := lowerStr (singularize_en kw_norm);
      let exact_bonus : ℚ := if true = true ∧ (lbl = kw_norm ∨ lbl = kw_sing) then 50 else 0;
      exact_bonus + (context_overlap ['C', 'a', 't'] [] candCat : ℚ) +
        3 / 5 * label_similarity simZero ['C', 'a', 't'] candCat) = 50
    simp only []
    rw [if_pos ⟨by trivial, Or.inl (by decide)⟩]
    rw [hov, hsim]
    norm_num
  · rw [if_neg (by decide), hov, hsim]
    norm_num

/-- Two suffix tests that cannot hold at once: a string cannot end both in
`ies` and in `ses`. -/
theorem not_endsWith_ies_and_ses {l : Str} (h1 : endsWithB l ['i', 'e', 's'] = true)
    (h2 : endsWithB l ['s', 'e', 's'] = true) : False := by
  unfold endsWithB at h1 h2
  rw [List.isPrefixOf_iff_prefix] at h1 h2
  have := List.prefix_of_prefix_length_le h1 h2 (by simp)
  have heq := List.IsPrefix.eq_of_length this (by simp)
  simp at heq

/-- **C5** (corrected: for a normalized word ending in `ses` the code drops
the trailing **`es`** — two characters — not just the trailing `s`).  With
that amendment the heuristic is: suffix tests are done on the lowercased
normalized word `n`; if `n` is longer than 3 and ends in `ies`, the last
three characters are replaced by `y`; else if `n` is longer than 3 and ends
in `ses`, the trailing `es` is dropped; else if `n` is longer than 2 and ends
in `s` but not `ss`, the trailing `s` is dropped; every other word is
returned unchanged. -/
theorem singularize_en_rules (word : Str) :
    (3 < (normalize_kw word).length →
      endsWithB (lowerStr (normalize_kw word)) ['i', 'e', 's'] = true →
      singularize_en word =
        (normalize_kw word).take ((normalize_kw word).length - 3) ++ ['y']) ∧
    (3 < (normalize_kw word).length →
      endsWithB (lowerStr (normalize_kw word)) ['s', 'e', 's'] = true →
      singularize_en word = (normalize_kw word).take ((normalize_kw word).length - 2)) ∧
    (2 < (normalize_kw word).length →
      endsWithB (lowerStr (normalize_kw word)) ['s'] = true →
      endsWithB (lowerStr (normalize_kw word)) ['s', 's'] = false →
      ¬(3 < (normalize_kw word).length ∧
        endsWithB (lowerStr (normalize_kw word)) ['i', 'e', 's'] = true) →
      ¬(3 < (normalize_kw word).length ∧
        endsWithB (lowerStr (normalize_kw word)) ['s', 'e', 's'] = true) →
      singularize_en word = (normalize_kw word).take ((normalize_kw word).length - 1)) ∧
    (¬(3 < (normalize_kw word).length ∧
        endsWithB (lowerStr (normalize_kw word)) ['i', 'e', 's'] = true) →
      ¬(3 < (normalize_kw word).length ∧
        endsWithB (lowerStr (normalize_kw word)) ['s', 'e', 's'] = true) →
      ¬(2 < (normalize_kw word).length ∧
        endsWithB (lowerStr (normalize_kw word)) ['s'] = true ∧
        endsWithB (lowerStr (normalize_kw word)) ['s', 's'] = false) →
      singularize_en word = normalize_kw word) := by
  refine ⟨?_, ?_, ?_, ?_⟩
  · intro hlen hies
    unfold singularize_en
    simp only []
    rw [if_pos ⟨hlen, hies⟩]
  · intro hlen hses
    unfold singularize_en
    simp only []
    rw [if_neg (fun hc => not_endsWith_ies_and_ses hc.2 hses)]
    rw [if_pos ⟨hlen, hses⟩]
  · intro hlen hs hss hnies hnses
    unfold singularize_en
    simp only []
    rw [if_neg hnies, if_neg hnses, if_pos ⟨hlen, hs, hss⟩]
  · intro hnies hnses hns
    unfold singularize_en
    simp only []
    rw [if_neg hnies, if_neg hnses, if_neg hns]

/-- **C5** witness: the third rule applied to `dogs`. -/
theorem singularize_en_rules_witness :
    (2 < (normalize_kw ['d', 'o', 'g', 's']).length ∧
      endsWithB (lowerStr (normalize_kw ['d', 'o', 'g', 's'])) ['s'] = true ∧
      endsWithB (lowerStr (normalize_kw ['d', 'o', 'g', 's'])) ['s', 's'] = false) ∧
    singularize_en ['d', 'o', 'g', 's'] =
      (normalize_kw ['d', 'o', 'g', 's']).take ((normalize_kw ['d', 'o', 'g', 's']).length - 1) :=
  ⟨by decide,
    (singularize_en_rules ['d', 'o', 'g', 's']).2.2.1 (by decide) (by decide) (by decide)
      (by decide) (by decide)⟩

/-- **C5** counterexample to the claim as stated: `buses` ends in `ses` and
has length greater than 3, but the code maps it to `bus` (dropping `es`), not
to `buse` (the word with only the trailing `s` dropped, as claimed). -/
theorem singularize_en_ses_counterexample :
    3 < (normalize_kw ['b', 'u', 's', 'e', 's']).length ∧
    endsWithB (lowerStr (normalize_kw ['b', 'u', 's', 'e', 's'])) ['s', 'e', 's'] = true ∧
    singularize_en ['b', 'u', 's', 'e', 's'] = ['b', 'u', 's'] ∧
    singularize_en ['b', 'u', 's', 'e', 's'] ≠
      (normalize_kw ['b', 'u', 's', 'e', 's']).take
        ((normalize_kw ['b', 'u', 's', 'e', 's']).length - 1) := by
  refine ⟨by decide, by decide, by decide, by decide⟩

/-- **C8** (confirmed).  The v2 context-overlap score is the cardinality of
the intersection of the context token set with the candidate blob token set
minus the keyword token set; no keyword token ever contributes. -/
theorem context_overlap_spec (keyword context : Str) (c : Candidate) :
    context_overlap keyword context c =
      ((tokenize (normalize_kw context)).toFinset ∩
        ((tokenize (candidate_context_str c)).toFinset \
          (tokenize (normalize_kw keyword)).toFinset)).card ∧
    ∀ t ∈ tokenize (normalize_kw keyword),
      t ∉ (tokenize (normalize_kw context)).toFinset ∩
        ((tokenize (candidate_context_str c)).toFinset \
          (tokenize (normalize_kw keyword)).toFinset) := by
  constructor
  · unfold context_overlap
    simp only []
    congr 1
    ext t
    simp [List.mem_toFinset, List.mem_filter, Finset.mem_sdiff]
  · intro t ht hmem
    exact (Finset.mem_sdiff.mp (Finset.mem_inter.mp hmem).2).2 (List.mem_toFinset.mpr ht)

/-! ### Hierarchy expansion (`expand_p279_paths`) -/

/-- One frontier path processed by the inner loop of `expand_p279_paths`:
a path whose last node has no parents is appended to the accumulated result
paths; otherwise each parent extends the path by one step in the new
frontier. -/
def stepOne (kb : Str → List Str) (acc : List (List Str) × List (List Str))
    (path : List Str) : List (List Str) × List (List Str) :=
  let parents := kb (path.getLastD [])
  if parents = [] then (acc.1 ++ [path], acc.2)
  else (acc.1, acc.2 ++ parents.map (fun par => path ++ [par]))

/-- One level of the expansion loop; if the new frontier is empty the old
frontier is kept (the `new_frontier or frontier` fallback of the source). -/
def expandLevel (kb : Str → List Str) (s : List (List Str) × List (List Str)) :
    List (List Str) × List (List Str) :=
  let r := s.2.foldl (stepOne kb) (s.1, [])
  (r.1, if r.2 = [] then s.2 else r.2)

/-- The `max_levels - 1` iterations of the level loop, starting from an empty
result list and one singleton path per direct superclass. -/
def expandLoop (kb : Str → List Str) (start_parents : List Str) (max_levels : ℕ) :
    List (List Str) × List (List Str) :=
  (expandLevel kb)^[max_levels - 1] ([], start_parents.map (fun p => [p]))

/-- The final loop of `expand_p279_paths`: append every frontier path not
already present in the accumulated result. -/
def appendNew (paths : List (List Str)) (frontier : List (List Str)) : List (List Str) :=
  frontier.foldl (fun ps p => if p ∈ ps then ps else ps ++ [p]) paths

/-- `expand_p279_paths` from the source, with the knowledge base modelled as
a parents oracle `kb` (the composition of `wbgetentities` and `_claim_ids`
for the subclass-of property on a given entity id). -/
def expand_p279_paths (kb : Str → List Str) (start_parents : List Str)
    (max_levels : ℕ) : List (List Str) :=
  if start_parents = [] then []
  else
    let s := expandLoop kb start_parents max_levels
    appendNew s.1 s.2

theorem appendNew_decomp (fr : List (List Str)) :
    ∀ ps, ∃ extra, appendNew ps fr = ps ++ extra ∧ extra.Nodup ∧
      (∀ q ∈ extra, q ∉ ps) ∧ (∀ q ∈ extra, q ∈ fr) := by
  induction fr with
  | nil =>
    intro ps
    exact ⟨[], by simp [appendNew], List.nodup_nil, by simp, by simp⟩
  | cons p fr ih =>
    intro ps
    by_cases hp : p ∈ ps
    · have hstep : appendNew ps (p :: fr) = appendNew ps fr := by
        simp [appendNew, hp]
      rw [hstep]
      obtain ⟨extra, he, hnd, hdis, hsub⟩ := ih ps
      exact ⟨extra, he, hnd, hdis, fun q hq => List.mem_cons_of_mem _ (hsub q hq)⟩
    · have hstep : appendNew ps (p :: fr) = appendNew (ps ++ [p]) fr := by
        simp [appendNew, hp]
      rw [hstep]
      obtain ⟨extra, he, hnd, hdis, hsub⟩ := ih (ps ++ [p])
      refine ⟨p :: extra, by simpa using he, ?_, ?_, ?_⟩
      · refine List.nodup_cons.mpr ⟨?_, hnd⟩
        intro hmem
        exact (hdis p hmem) (by simp)
      · intro q hq
        rcases List.mem_cons.mp hq with h' | h'
        · subst h'; exact hp
        · intro hqs
          exact (hdis q h') (List.mem_append_left _ hqs)
      · intro q hq
        rcases List.mem_cons.mp hq with h' | h'
        · subst h'; simp
        · exact List.mem_cons_of_mem _ (hsub q h')

theorem mem_appendNew_cases {ps fr : List (List Str)} {q : List Str}
    (h : q ∈ appendNew ps fr) : q ∈ ps ∨ q ∈ fr := by
  obtain ⟨extra, he, _, _, hsub⟩ := appendNew_decomp fr ps
  rw [he] at h
  rcases List.mem_append.mp h with h' | h'
  · exact Or.inl h'
  · exact Or.inr (hsub q h')

theorem mem_appendNew_of_mem_left {ps fr : List (List Str)} {q : List Str}
    (h : q ∈ ps) : q ∈ appendNew ps fr := by
  obtain ⟨extra, he, _, _, _⟩ := appendNew_decomp fr ps
  rw [he]
  exact List.mem_append_left _ h

theorem mem_appendNew_of_mem_frontier {fr : List (List Str)} :
    ∀ {ps : List (List Str)} {q : List Str}, q ∈ fr → q ∈ appendNew ps fr := by
  induction fr with
  | nil => intro ps q h; simp at h
  | cons p fr ih =>
    intro ps q h
    by_cases hp : p ∈ ps
    · have hstep : appendNew ps (p :: fr) = appendNew ps fr := by
        simp [appendNew, hp]
      rw [hstep]
      rcases List.mem_cons.mp h with h' | h'
      · subst h'; exact mem_appendNew_of_mem_left hp
      · exact ih h'
    · have hstep : appendNew ps (p :: fr) = appendNew (ps ++ [p]) fr := by
        simp [appendNew, hp]
      rw [hstep]
      rcases List.mem_cons.mp h with h' | h'
      · subst h'; exact mem_appendNew_of_mem_left (by simp)
      · exact ih h'

theorem stepOne_foldl_inv (kb : Str → List Str) (A B C : List Str → Prop)
    (hBA : ∀ p, B p → A p)
    (hext : ∀ p par, B p → par ∈ kb (p.getLastD []) → C (p ++ [par])) :
    ∀ (fr : List (List Str)) (acc : List (List Str) × List (List Str)),
      (∀ p ∈ acc.1, A p) → (∀ p ∈ acc.2, C p) → (∀ p ∈ fr, B p) →
      (∀ p ∈ (fr.foldl (stepOne kb) acc).1, A p) ∧
      (∀ p ∈ (fr.foldl (stepOne kb) acc).2, C p) := by
  intro fr
  induction fr with
  | nil => intro acc h1 h2 _; exact ⟨h1, h2⟩
  | cons q fr ih =>
    intro acc h1 h2 h3
    have hq : B q := h3 q (by simp)
    have hstep : (∀ p ∈ (stepOne kb acc q).1, A p) ∧ (∀ p ∈ (stepOne kb acc q).2, C p) := by
      unfold stepOne
      simp only []
      by_cases hpar : kb (q.getLastD []) = []
      · rw [if_pos hpar]
        refine ⟨?_, h2⟩
        intro p hp
        rcases List.mem_append.mp hp with h' | h'
        · exact h1 p h'
        · simp at h'
          subst h'
          exact hBA _ hq
      · rw [if_neg hpar]
        refine ⟨h1, ?_⟩
        intro p hp
        rcases List.mem_append.mp hp with h' | h'
        · exact h2 p h'
        · rcases List.mem_map.mp h' with ⟨par, hparm, hpe⟩
          subst hpe
          exact hext q par hq hparm
    exact ih (stepOne kb acc q) hstep.1 hstep.2 (fun p hp => h3 p (List.mem_cons_of_mem _ hp))

theorem expandLevel_inv (kb : Str → List Str) (A B C : List Str → Prop)
    (hBA : ∀ p, B p → A p) (hBC : ∀ p, B p → C p)
    (hext : ∀ p par, B p → par ∈ kb (p.getLastD []) → C (p ++ [par])) :
    ∀ s : List (List Str) × List (List Str),
      (∀ p ∈ s.1, A p) → (∀ p ∈ s.2, B p) →
      (∀ p ∈ (expandLevel kb s).1, A p) ∧ (∀ p ∈ (expandLevel kb s).2, C p) := by
  intro s h1 h2
  unfold expandLevel
  simp only []
  have hf := stepOne_foldl_inv kb A B C hBA hext s.2 (s.1, []) h1 (by simp) h2
  refine ⟨hf.1, ?_⟩
  by_cases hr : (s.2.foldl (stepOne kb) (s.1, [])).2 = []
  · rw [if_pos hr]
    exact fun p hp => hBC p (h2 p hp)
  · rw [if_neg hr]
    exact hf.2

/-- Every path occurring in the expansion state is a chain of the parents
relation: each entry is among the knowledge-base parents of its
predecessor. -/
def IsKbChain (kb : Str → List Str) (p : List Str) : Prop :=
  p.Chain' (fun a b => b ∈ kb a)

theorem kbChain_append {kb : Str → List Str} {p : List Str} {par : Str}
    (h : IsKbChain kb p) (hpar : par ∈ kb (p.getLastD [])) :
    IsKbChain kb (p ++ [par]) := by
  cases p with
  | nil => simp [IsKbChain]
  | cons x xs =>
    refine List.chain'_append.mpr ⟨h, List.chain'_singleton _, ?_⟩
    intro y hy z hz
    simp at hz
    subst hz
    have hlast : (x :: xs).getLastD [] = y := by
      rw [List.getLastD_eq_getLast?, hy]
      rfl
    rwa [hlast] at hpar

theorem expandLoop_length (kb : Str → List Str) (start_parents : List Str) :
    ∀ j : ℕ,
      (∀ p ∈ ((expandLevel kb)^[j] ([], start_parents.map (fun p => [p]))).1,
        p.length ≤ j) ∧
      (∀ p ∈ ((expandLevel kb)^[j] ([], start_parents.map (fun p => [p]))).2,
        p.length ≤ j + 1) := by
  intro j
  induction j with
  | zero =>
    constructor
    · intro p hp
      simp [Function.iterate_zero] at hp
    · intro p hp
      simp [Function.iterate_zero] at hp
      rcases hp with ⟨a, _, hpe⟩
      rw [← hpe]
      simp
  | succ j ih =>
    rw [Function.iterate_succ_apply']
    have := expandLevel_inv kb
      (fun p => p.length ≤ j + 1) (fun p => p.length ≤ j + 1) (fun p => p.length ≤ j + 2)
      (fun p hp => hp) (fun p hp => Nat.le_succ_of_le hp)
      (fun p par hp _ => by
        show (p ++ [par]).length ≤ j + 2
        rw [List.length_append]
        simpa using Nat.succ_le_succ hp)
      ((expandLevel kb)^[j] ([], start_parents.map (fun p => [p])))
      (fun p hp => Nat.le_succ_of_le (ih.1 p hp))
      ih.2
    exact this

theorem expandLoop_chain (kb : Str → List Str) (start_parents : List Str) :
    ∀ j : ℕ,
      (∀ p ∈ ((expandLevel kb)^[j] ([], start_parents.map (fun p => [p]))).1,
        IsKbChain kb p) ∧
      (∀ p ∈ ((expandLevel kb)^[j] ([], start_parents.map (fun p => [p]))).2,
        IsKbChain kb p) := by
  intro j
  induction j with
  | zero =>
    constructor
    · intro p hp
      simp [Function.iterate_zero] at hp
    · intro p hp
      simp [Function.iterate_zero] at hp
      rcases hp with ⟨a, _, hpe⟩
      rw [← hpe]
      exact List.chain'_singleton _
  | succ j ih =>
    rw [Function.iterate_succ_apply']
    exact expandLevel_inv kb (IsKbChain kb) (IsKbChain kb) (IsKbChain kb)
      (fun p hp => hp) (fun p hp => hp)
      (fun p par hp hpar => kbChain_append hp hpar)
      ((expandLevel kb)^[j] ([], start_parents.map (fun p => [p])))
      ih.1 ih.2

theorem mem_expand_p279_paths {kb : Str → List Str} {start_parents : List Str}
    {max_levels : ℕ} {p : List Str}
    (h : p ∈ expand_p279_paths kb start_parents max_levels) :
    p ∈ (expandLoop kb start_parents max_levels).1 ∨
    p ∈ (expandLoop kb start_parents max_levels).2 := by
  unfold expand_p279_paths at h
  by_cases hs : start_parents = []
  · rw [if_pos hs] at h
    simp at h
  · rw [if_neg hs] at h
    exact mem_appendNew_cases h

/-- **C7** (confirmed).  For a non-empty list of direct superclass ids and
`max_levels ≥ 1`, every path returned by the hierarchy expansion has at most
`max_levels` entries, and every path still on the frontier when the depth
bound is reached is emitted (truncated) in the result rather than extended
further. -/
theorem expand_p279_paths_depth_bound (kb : Str → List Str) (start_parents : List Str)
    (max_levels : ℕ) (hne : start_parents ≠ []) (hml : 1 ≤ max_levels) :
    (∀ p ∈ expand_p279_paths kb start_parents max_levels, p.length ≤ max_levels) ∧
    (∀ p ∈ (expandLoop kb start_parents max_levels).2,
      p ∈ expand_p279_paths kb start_parents max_levels) := by
  have hiter := expandLoop_length kb start_parents (max_levels - 1)
  have hsub : max_levels - 1 + 1 = max_levels := Nat.succ_pred_eq_of_pos hml
  constructor
  · intro p hp
    rcases mem_expand_p279_paths hp with h' | h'
    · have := hiter.1 p h'
      omega
    · have := hiter.2 p h'
      omega
  · intro p hp
    unfold expand_p279_paths
    rw [if_neg hne]
    exact mem_appendNew_of_mem_frontier hp

/-- **C7** witness: a three-level expansion over a childless knowledge base
starting from one parent. -/
theorem expand_p279_paths_depth_bound_witness :
    (([['Q', '1']] : List Str) ≠ [] ∧ 1 ≤ 3) ∧
    ((∀ p ∈ expand_p279_paths (fun _ => []) [['Q', '1']] 3, p.length ≤ 3) ∧
      (∀ p ∈ (expandLoop (fun _ => []) [['Q', '1']] 3).2,
        p ∈ expand_p279_paths (fun _ => []) [['Q', '1']] 3)) :=
  ⟨⟨by decide, by decide⟩,
    expand_p279_paths_depth_bound (fun _ => []) [['Q', '1']] 3 (by decide) (by decide)⟩

/-- **C3** (corrected: the code has no per-path visited check, so a cyclic
knowledge-base response produces paths with repeated ids; the invariant holds
once the subclass relation of the response is acyclic, here witnessed by a
rank function that strictly decreases from child to parent).  Under that
hypothesis no returned path contains the same entity id twice. -/
theorem expand_p279_paths_nodup_of_rank (kb : Str → List Str) (start_parents : List Str)
    (max_levels : ℕ) (rank : Str → ℕ)
    (hrank : ∀ a b, b ∈ kb a → rank b < rank a) :
    ∀ p ∈ expand_p279_paths kb start_parents max_levels, p.Nodup := by
  intro p hp
  have hchain : IsKbChain kb p := by
    rcases mem_expand_p279_paths hp with h' | h'
    · exact (expandLoop_chain kb start_parents (max_levels - 1)).1 p h'
    · exact (expandLoop_chain kb start_parents (max_levels - 1)).2 p h'
  have hrk : p.Chain' (fun a b => rank b < rank a) :=
    List.Chain'.imp (fun a b h => hrank a b h) hchain
  haveI : IsTrans Str (fun a b => rank b < rank a) :=
    ⟨fun _ _ _ h1 h2 => lt_trans h2 h1⟩
  have hpw : p.Pairwise (fun a b => rank b < rank a) := List.chain'_iff_pairwise.mp hrk
  exact hpw.imp (fun {a b} h => fun he => by rw [he] at h; exact lt_irrefl _ h)

/-- **C3** witness: the empty parents oracle is ranked by the constant
function, and every path of the expansion is duplicate-free. -/
theorem expand_p279_paths_nodup_witness :
    (∀ a b : Str, b ∈ (fun _ : Str => ([] : List Str)) a →
      (fun _ : Str => (0 : ℕ)) b < (fun _ : Str => (0 : ℕ)) a) ∧
    ∀ p ∈ expand_p279_paths (fun _ => []) [['Q', '2']] 2, p.Nodup :=
  ⟨fun _ b h => absurd h (List.not_mem_nil b),
    expand_p279_paths_nodup_of_rank (fun _ => []) [['Q', '2']] 2 (fun _ => 0)
      (fun _ b h => absurd h (List.not_mem_nil b))⟩

/-- **C3** counterexample to the claim as stated: with a knowledge-base
response containing the subclass cycle `Q1 -> Q1`, the expansion returns the
path `[Q1, Q1]`, which contains the same entity id twice. -/
theorem expand_p279_paths_cycle_counterexample :
    expand_p279_paths (fun _ => [['Q', '1']]) [['Q', '1']] 2 = [[['Q', '1'], ['Q', '1']]] ∧
    ¬ ([['Q', '1'], ['Q', '1']] : List Str).Nodup := by
  constructor
  · decide
  · decide

theorem expandLevel_nil_fixed (kb : Str → List Str) : expandLevel kb ([], []) = ([], []) := rfl

theorem expandLoop_nil (kb : Str → List Str) (n : ℕ) : expandLoop kb [] n = ([], []) := by
  unfold expandLoop
  simp only [List.map_nil]
  exact Function.iterate_fixed (expandLevel_nil_fixed kb) (n - 1)

/-- **C6** (corrected: the returned list is *not* duplicate-free in general —
when every frontier path terminates in the same iteration the source's
`new_frontier or frontier` fallback re-processes the old frontier and appends
the same terminated paths again.  The dedup check guards only the final
loop).  What holds: the result is the list of early-terminated paths followed
by a block of final-frontier paths that is itself duplicate-free and disjoint
from the earlier block. -/
theorem expand_p279_paths_final_dedup (kb : Str → List Str) (start_parents : List Str)
    (max_levels : ℕ) :
    ∃ extra, expand_p279_paths kb start_parents max_levels =
        (expandLoop kb start_parents max_levels).1 ++ extra ∧
      extra.Nodup ∧ ∀ q ∈ extra, q ∉ (expandLoop kb start_parents max_levels).1 := by
  by_cases hs : start_parents = []
  · refine ⟨[], ?_, List.nodup_nil, by simp⟩
    subst hs
    rw [expandLoop_nil]
    simp [expand_p279_paths]
  · obtain ⟨extra, he, hnd, hdis, _⟩ :=
      appendNew_decomp (expandLoop kb start_parents max_levels).2
        (expandLoop kb start_parents max_levels).1
    refine ⟨extra, ?_, hnd, hdis⟩
    unfold expand_p279_paths
    rw [if_neg hs]
    exact he

/-- **C6** counterexample to the claim as stated: over a childless knowledge
base with one direct superclass and depth 3, the single terminated path is
emitted twice — the returned path list contains two identical id
sequences. -/
theorem expand_p279_paths_duplicate_counterexample :
    expand_p279_paths (fun _ => []) [['Q', '1']] 3 = [[['Q', '1']], [['Q', '1']]] ∧
    ¬ (expand_p279_paths (fun _ => []) [['Q', '1']] 3).Nodup := by
  constructor
  · decide
  · decide

/-! ### Entity payloads and the per-keyword pipeline (`map_keywords`) -/

/-- The `mainsnak.datavalue.value` of a claim: an entity reference (a mapping
carrying an `id`), a literal string value, or anything else. -/
inductive DValue
  | entityRef (id : Str)
  | lit (s : Str)
  | other
deriving DecidableEq

/-- A full entity detail payload: ordered language-to-label pairs and the
claims map from property id to datavalue list. -/
structure Entity where
  labels : List (Str × Str)
  claims : Str → List DValue

def P_INSTANCE_OF : Str := ['P', '3', '1']

def P_SUBCLASS_OF : Str := ['P', '2', '7', '9']

def P_BNF_ID : Str := ['P', '2', '6', '8']

def Q_DISAMBIGUATION : Str := ['Q', '4', '1', '6', '7', '4', '1', '0']

def LANGS : List Str := [['e', 'n'], ['f', 'r']]

def MAX_LEVELS_LINEAGE : ℕ := 5

/-- `_claim_ids`: entity-reference ids with a truthy `id` under a property. -/
def claim_ids (e : Entity) (pid : Str) : List Str :=
  (e.claims pid).filterMap (fun dv =>
    match dv with
    | DValue.entityRef id => if id = [] then none else some id
    | _ => none)

/-- First-occurrence deduplication, modelling iteration over the Python set
built from a list. -/
def dedupFirst (seen : List Str) : List Str → List Str
  | [] => []
  | x :: xs => if x ∈ seen then dedupFirst seen xs else x :: dedupFirst (x :: seen) xs

/-- `get_p31_ids`: the set of instance-of ids of an entity. -/
def get_p31_ids (e : Entity) : List Str := dedupFirst [] (claim_ids e P_INSTANCE_OF)

/-- `is_disambiguation`: some instance-of claim references the
disambiguation-page item (the `qid` argument is unused in the source too). -/
def is_disambiguation (_qid : Str) (e : Entity) : Bool :=
  (e.claims P_INSTANCE_OF).any (fun dv =>
    match dv with
    | DValue.entityRef id => id == Q_DISAMBIGUATION
    | _ => false)

/-- `extract_bnf_id`: the first truthy external-id value under `P268`. -/
def extract_bnf_id (e : Entity) : Option Str :=
  (e.claims P_BNF_ID).findSome? (fun dv =>
    match dv with
    | DValue.lit s => if s = [] then none else some s
    | DValue.entityRef id => if id = [] then none else some id
    | DValue.other => none)

/-- `extract_label`: first label in language priority order, then any label,
then empty. -/
def extract_label (e : Entity) (languages : List Str) : Str :=
  match languages.findSome? (fun lg => e.labels.lookup lg) with
  | some v => v
  | none =>
    match e.labels.head? with
    | some p => p.2
    | none => []

/-- Lexicographic comparison of strings (Python ordering of `sorted`). -/
def strLe : Str → Str → Bool
  | [], _ => true
  | _ :: _, [] => false
  | a :: as, b :: bs => if a < b then true else if b < a then false else strLe as bs

/-- Insertion into a sorted list of strings. -/
def insSorted (x : Str) : List Str → List Str
  | [] => [x]
  | y :: ys => if strLe x y then x :: y :: ys else y :: insSorted x ys

/-- Python `sorted` on strings. -/
def sortStrs (l : List Str) : List Str := l.foldr insSorted []

/-- One CSV output row of `map_keywords`. -/
structure Row where
  docid : Str
  title : Str
  keyword : Str
  wikidata_label : Str
  wikidata_qid : Str
  bnf_id : Str
  p279_path : Str
  retry_source : Str
  match_stage : Str
  is_disambiguation : Str
  label_similarity : ℚ
  match_score : ℚ
  p31_types : Str
  p31_label : Str

/-- The per-keyword local variables of `map_keywords` just before the CSV
rows are written. -/
structure ProcState where
  qid : Str
  label : Str
  bnf : Str
  disambig : Bool
  match_stage : Str
  best_sim : ℚ
  best_score : ℚ
  p31s_out : List Str
  p31_labels_out : Str
  p279_paths_labels : List Str

def noneStageStr : Str := ['n', 'o', 'n', 'e']

def contextOrExactStr : Str :=
  ['c', 'o', 'n', 't', 'e', 'x', 't', '_', 'o', 'r', '_', 'e', 'x', 'a', 'c', 't']

def yesStr : Str := ['y', 'e', 's']

def noStr : Str := ['n', 'o']

/-- The initial values of the per-keyword variables. -/
def initProc : ProcState :=
  ⟨[], [], [], false, noneStageStr, 0, 0, [], [], []⟩

/-- Python `round(x, 1)` modelled on rationals (binary-float rounding-mode
differences are irrelevant to the claims below). -/
def round1 (q : ℚ) : ℚ := (round (q * 10) : ℤ) / 10

/-- The per-keyword state computation of `map_keywords`: resolve, fetch the
accepted entity's detail, check disambiguation, and on success collect label,
BnF id, instance-of ids and subclass-of ancestry.  `getEnt` models
`wbgetentities` for one id (`none` for a missing or empty payload),
`labelsFor` models `get_labels_for` including its qid fallback, `kbPar` is
the parents oracle of the hierarchy expansion, and `resolve` models
`pick_with_context_then_exact`. -/
def keyword_state (getEnt : Str → Option Entity) (labelsFor : Str → Str)
    (kbPar : Str → List Str) (resolve : Str → Str → Option Candidate)
    (context kw : Str) : ProcState :=
  match resolve kw context with
  | none => initProc
  | some c =>
    match getEnt c.id with
    | none => initProc
    | some ent =>
      if is_disambiguation c.id ent then { initProc with disambig := true }
      else
        let p31s := get_p31_ids ent
        let qidPaths :=
          expand_p279_paths kbPar (claim_ids ent P_SUBCLASS_OF) MAX_LEVELS_LINEAGE
        { qid := c.id
          label := extract_label ent LANGS
          bnf := (extract_bnf_id ent).getD []
          disambig := false
          match_stage := c.stage.getD contextOrExactStr
          best_sim := c.label_similarity
          best_score := c.match_score
          p31s_out := p31s
          p31_labels_out := joinSep [';'] (p31s.map labelsFor)
          p279_paths_labels :=
            qidPaths.map (fun qp => joinSep [' ', '>', ' '] (qp.map labelsFor)) }

/-- The CSV rows written for one keyword: one row per ancestry path, or a
single row with an empty path. -/
def keyword_rows (getEnt : Str → Option Entity) (labelsFor : Str → Str)
    (kbPar : Str → List Str) (resolve : Str → Str → Option Candidate)
    (docid title context kw : Str) : List Row :=
  let cand := resolve kw context
  let st := keyword_state getEnt labelsFor kbPar resolve context kw
  let paths := if st.p279_paths_labels = [] then [[]] else st.p279_paths_labels
  paths.map (fun ptext =>
    { docid := docid
      title := title
      keyword := kw
      wikidata_label := st.label
      wikidata_qid := st.qid
      bnf_id := st.bnf
      p279_path := ptext
      retry_source := st.match_stage
      match_stage := st.match_stage
      is_disambiguation := if cand.isSome && st.disambig then yesStr else noStr
      label_similarity := round1 st.best_sim
      match_score := round1 st.best_score
      p31_types := if st.p31s_out = [] then [] else joinSep [';'] (sortStrs st.p31s_out)
      p31_label := st.p31_labels_out })

/-- An input record as consumed by `map_keywords` (fields may be absent). -/
structure Record where
  title_s : Option Str
  abstract_s : Option Str
  docid : Option Str
  halId_s : Option Str
  keyword_s : Option (List Str)
  keywords_joined : Option Str

/-- Python `a or b` for an optional string (missing and empty are falsy). -/
def orElseStr (a : Option Str) (b : Str) : Str :=
  match a with
  | some s => if s = [] then b else s
  | none => b

/-- The document identifier of a record: `docid or halId_s or ""`. -/
def recDocid (rec : Record) : Str :=
  orElseStr rec.docid (orElseStr rec.halId_s [])

/-- Split on every semicolon or comma (with empty pieces preserved). -/
def splitSemiComma (acc : Str) : Str → List Str
  | [] => [acc.reverse]
  | c :: cs =>
    if c = ';' || c = ',' then acc.reverse :: splitSemiComma [] cs
    else splitSemiComma (c :: acc) cs

/-- The keyword list of a record: `keyword_s`, or the split-and-stripped
`keywords_joined` fallback when the list is missing or empty. -/
def recKeywords (rec : Record) : List Str :=
  let ks := rec.keyword_s.getD []
  if ks = [] then
    match rec.keywords_joined with
    | some raw =>
      if raw = [] then []
      else ((splitSemiComma [] raw).map stripWs).filter (fun k => k ≠ [])
    | none => []
  else ks

/-- The per-record body of the `map_keywords` loop: build the context and
document id, then process every keyword not already in the seen-set. -/
def record_step (getEnt : Str → Option Entity) (labelsFor : Str → Str)
    (kbPar : Str → List Str) (resolve : Str → Str → Option Candidate)
    (acc : List Row × List (Str × Str)) (rec : Record) : List Row × List (Str × Str) :=
  let title := rec.title_s.getD []
  let abstract := rec.abstract_s.getD []
  let context := title ++ '.' :: ' ' :: abstract
  let docid := recDocid rec
  (recKeywords rec).foldl (fun acc2 kw =>
    if (docid, kw) ∈ acc2.2 then acc2
    else (acc2.1 ++ keyword_rows getEnt labelsFor kbPar resolve docid title context kw,
          acc2.2 ++ [(docid, kw)])) acc

/-- `map_keywords`, returning the rows together with the seen-set (as the
ordered list of processed `(docid, keyword)` pairs). -/
def map_keywords_aux (getEnt : Str → Option Entity) (labelsFor : Str → Str)
    (kbPar : Str → List Str) (resolve : Str → Str → Option Candidate)
    (records : List Record) : List Row × List (Str × Str) :=
  records.foldl (record_step getEnt labelsFor kbPar resolve) ([], [])

/-- `map_keywords` from the source (the CSV rows). -/
def map_keywords (getEnt : Str → Option Entity) (labelsFor : Str → Str)
    (kbPar : Str → List Str) (resolve : Str → Str → Option Candidate)
    (records : List Record) : List Row :=
  (map_keywords_aux getEnt labelsFor kbPar resolve records).1

/-- All `(docid, keyword)` occurrences of the input, in processing order. -/
def occurrence_pairs (records : List Record) : List (Str × Str) :=
  (records.map (fun rec => (recKeywords rec).map (fun kw => (recDocid rec, kw)))).flatten

theorem mem_of_mem_dedupFirst :
    ∀ {seen l : List Str} {x : Str}, x ∈ dedupFirst seen l → x ∈ l := by
  intro seen l
  induction l generalizing seen with
  | nil => intro x h; simp [dedupFirst] at h
  | cons y ys ih =>
    intro x h
    unfold dedupFirst at h
    by_cases hy : y ∈ seen
    · rw [if_pos hy] at h
      exact List.mem_cons_of_mem _ (ih h)
    · rw [if_neg hy] at h
      rcases List.mem_cons.mp h with h' | h'
      · simp [h']
      · exact List.mem_cons_of_mem _ (ih h')

theorem is_disambiguation_of_mem_p31 {e : Entity}
    (h : Q_DISAMBIGUATION ∈ get_p31_ids e) (q : Str) :
    is_disambiguation q e = true := by
  have h1 : Q_DISAMBIGUATION ∈ claim_ids e P_INSTANCE_OF := mem_of_mem_dedupFirst h
  unfold claim_ids at h1
  rcases List.mem_filterMap.mp h1 with ⟨dv, hdv, hf⟩
  unfold is_disambiguation
  rw [List.any_eq_true]
  refine ⟨dv, hdv, ?_⟩
  cases dv with
  | entityRef id =>
    dsimp only at hf
    by_cases hid : id = []
    · rw [if_pos hid] at hf
      exact absurd hf (by simp)
    · rw [if_neg hid] at hf
      have hq : id = Q_DISAMBIGUATION := by injection hf
      dsimp only
      rw [hq]
      simp
  | lit s => exact absurd hf (by simp)
  | other => exact absurd hf (by simp)

/-- **C2** (confirmed).  Whenever the resolver accepts a candidate (from
either stage) whose fetched entity detail carries the disambiguation-page
type among its instance-of ids, `map_keywords` emits a single row for that
keyword with every entity field empty — no resolved id, label,
cross-reference id, hierarchy path or type information — and flags it as a
disambiguation hit, so the candidate is never surfaced as resolved. -/
theorem disambiguation_yields_unresolved_row
    (getEnt : Str → Option Entity) (labelsFor : Str → Str) (kbPar : Str → List Str)
    (resolve : Str → Str → Option Candidate) (docid title context kw : Str)
    (c : Candidate) (ent : Entity)
    (hres : resolve kw context = some c) (hent : getEnt c.id = some ent)
    (hdis : Q_DISAMBIGUATION ∈ get_p31_ids ent) :
    ∃ r, keyword_rows getEnt labelsFor kbPar resolve docid title context kw = [r] ∧
      r.wikidata_qid = [] ∧ r.wikidata_label = [] ∧ r.bnf_id = [] ∧
      r.p279_path = [] ∧ r.p31_types = [] ∧ r.p31_label = [] ∧
      r.is_disambiguation = yesStr := by
  have hd := is_disambiguation_of_mem_p31 hdis c.id
  have hst : keyword_state getEnt labelsFor kbPar resolve context kw =
      { initProc with disambig := true } := by
    unfold keyword_state
    rw [hres]
    dsimp only
    rw [hent]
    dsimp only
    rw [if_pos hd]
  refine ⟨{ docid := docid, title := title, keyword := kw, wikidata_label := [],
            wikidata_qid := [], bnf_id := [], p279_path := [], retry_source := noneStageStr,
            match_stage := noneStageStr, is_disambiguation := yesStr,
            label_similarity := round1 0, match_score := round1 0,
            p31_types := [], p31_label := [] }, ?_, rfl, rfl, rfl, rfl, rfl, rfl, rfl⟩
  unfold keyword_rows
  rw [hst, hres]
  rfl

/-- Concrete disambiguation-typed entity. -/
def entDisambig : Entity :=
  ⟨[], fun pid => if pid = P_INSTANCE_OF then [DValue.entityRef Q_DISAMBIGUATION] else []⟩

/-- Concrete accepted candidate. -/
def candW : Candidate :=
  ⟨['Q', '9'], some ['x'], none, [], ['e', 'n'], 0, 0,
    some ['c', 'o', 'n', 't', 'e', 'x', 't']⟩

/-- **C2** witness: a resolver returning a disambiguation-typed candidate
yields an empty-fielded row. -/
theorem disambiguation_yields_unresolved_row_witness :
    ((fun _ _ => some candW : Str → Str → Option Candidate) [] [] = some candW ∧
      (fun _ => some entDisambig : Str → Option Entity) candW.id = some entDisambig ∧
      Q_DISAMBIGUATION ∈ get_p31_ids entDisambig) ∧
    ∃ r, keyword_rows (fun _ => some entDisambig) (fun q => q) (fun _ => [])
        (fun _ _ => some candW) [] [] [] [] = [r] ∧
      r.wikidata_qid = [] ∧ r.wikidata_label = [] ∧ r.bnf_id = [] ∧
      r.p279_path = [] ∧ r.p31_types = [] ∧ r.p31_label = [] ∧
      r.is_disambiguation = yesStr :=
  ⟨⟨rfl, rfl, by decide⟩,
    disambiguation_yields_unresolved_row (fun _ => some entDisambig) (fun q => q)
      (fun _ => []) (fun _ _ => some candW) [] [] [] [] candW entDisambig rfl rfl
      (by decide)⟩

theorem keyword_rows_key (getEnt : Str → Option Entity) (labelsFor : Str → Str)
    (kbPar : Str → List Str) (resolve : Str → Str → Option Candidate)
    (docid title context kw : Str) :
    ∀ r ∈ keyword_rows getEnt labelsFor kbPar resolve docid title context kw,
      r.docid = docid ∧ r.keyword = kw := by
  intro r hr
  unfold keyword_rows at hr
  rcases List.mem_map.mp hr with ⟨pt, _, hre⟩
  rw [← hre]
  exact ⟨rfl, rfl⟩

theorem inner_foldl_seen (docid : Str) (g : Str → List Row)
    (hg : ∀ kw, ∀ r ∈ g kw, r.docid = docid ∧ r.keyword = kw) :
    ∀ (kws : List Str) (acc : List Row × List (Str × Str)),
      acc.2.Nodup →
      (∀ r ∈ acc.1, (r.docid, r.keyword) ∈ acc.2) →
      (kws.foldl (fun acc2 kw =>
          if (docid, kw) ∈ acc2.2 then acc2
          else (acc2.1 ++ g kw, acc2.2 ++ [(docid, kw)])) acc).2.Nodup ∧
      (∀ p, p ∈ (kws.foldl (fun acc2 kw =>
          if (docid, kw) ∈ acc2.2 then acc2
          else (acc2.1 ++ g kw, acc2.2 ++ [(docid, kw)])) acc).2 ↔
        p ∈ acc.2 ∨ p ∈ kws.map (fun kw => (docid, kw))) ∧
      (∀ r ∈ (kws.foldl (fun acc2 kw =>
          if (docid, kw) ∈ acc2.2 then acc2
          else (acc2.1 ++ g kw, acc2.2 ++ [(docid, kw)])) acc).1,
        (r.docid, r.keyword) ∈ (kws.foldl (fun acc2 kw =>
          if (docid, kw) ∈ acc2.2 then acc2
          else (acc2.1 ++ g kw, acc2.2 ++ [(docid, kw)])) acc).2) := by
  intro kws
  induction kws with
  | nil =>
    intro acc hnd hrows
    refine ⟨hnd, ?_, hrows⟩
    intro p
    simp
  | cons kw kws ih =>
    intro acc hnd hrows
    by_cases hmem : (docid, kw) ∈ acc.2
    · have hstep : (List.foldl (fun acc2 kw =>
          if (docid, kw) ∈ acc2.2 then acc2
          else (acc2.1 ++ g kw, acc2.2 ++ [(docid, kw)])) acc (kw :: kws)) =
          (List.foldl (fun acc2 kw =>
          if (docid, kw) ∈ acc2.2 then acc2
          else (acc2.1 ++ g kw, acc2.2 ++ [(docid, kw)])) acc kws) := by
        rw [List.foldl_cons, if_pos hmem]
      rw [hstep]
      obtain ⟨h1, h2, h3⟩ := ih acc hnd hrows
      refine ⟨h1, ?_, h3⟩
      intro p
      rw [h2 p]
      constructor
      · rintro (h' | h')
        · exact Or.inl h'
        · exact Or.inr (by simp [h'])
      · rintro (h' | h')
        · exact Or.inl h'
        · rcases List.mem_map.mp h' with ⟨kw', hkw', hpe⟩
          rcases List.mem_cons.mp hkw' with h'' | h''
          · subst h''
            rw [← hpe]
            exact Or.inl hmem
          · exact Or.inr (List.mem_map.mpr ⟨kw', h'', hpe⟩)
    · have hstep : (List.foldl (fun acc2 kw =>
          if (docid, kw) ∈ acc2.2 then acc2
          else (acc2.1 ++ g kw, acc2.2 ++ [(docid, kw)])) acc (kw :: kws)) =
          (List.foldl (fun acc2 kw =>
          if (docid, kw) ∈ acc2.2 then acc2
          else (acc2.1 ++ g kw, acc2.2 ++ [(docid, kw)]))
            (acc.1 ++ g kw, acc.2 ++ [(docid, kw)]) kws) := by
        rw [List.foldl_cons, if_neg hmem]
      rw [hstep]
      have hnd' : (acc.2 ++ [(docid, kw)]).Nodup := by
        refine List.Nodup.append hnd (List.nodup_singleton _) ?_
        intro a ha hb
        simp at hb
        subst hb
        exact hmem ha
      have hrows' : ∀ r ∈ acc.1 ++ g kw,
          (r.docid, r.keyword) ∈ acc.2 ++ [(docid, kw)] := by
        intro r hr
        rcases List.mem_append.mp hr with h' | h'
        · exact List.mem_append_left _ (hrows r h')
        · obtain ⟨hd, hk⟩ := hg kw r h'
          rw [hd, hk]
          exact List.mem_append_right _ (by simp)
      obtain ⟨h1, h2, h3⟩ := ih (acc.1 ++ g kw, acc.2 ++ [(docid, kw)]) hnd' hrows'
      refine ⟨h1, ?_, h3⟩
      intro p
      rw [h2 p]
      simp only [List.mem_append, List.mem_singleton, List.map_cons, List.mem_cons,
        List.not_mem_nil, or_false]
      tauto

theorem record_step_inv (getEnt : Str → Option Entity) (labelsFor : Str → Str)
    (kbPar : Str → List Str) (resolve : Str → Str → Option Candidate)
    (rec : Record) (acc : List Row × List (Str × Str))
    (hnd : acc.2.Nodup) (hrows : ∀ r ∈ acc.1, (r.docid, r.keyword) ∈ acc.2) :
    (record_step getEnt labelsFor kbPar resolve acc rec).2.Nodup ∧
    (∀ p, p ∈ (record_step getEnt labelsFor kbPar resolve acc rec).2 ↔
      p ∈ acc.2 ∨ p ∈ (recKeywords rec).map (fun kw => (recDocid rec, kw))) ∧
    (∀ r ∈ (record_step getEnt labelsFor kbPar resolve acc rec).1,
      (r.docid, r.keyword) ∈ (record_step getEnt labelsFor kbPar resolve acc rec).2) :=
  inner_foldl_seen (recDocid rec)
    (fun kw => keyword_rows getEnt labelsFor kbPar resolve (recDocid rec)
      (rec.title_s.getD [])
      ((rec.title_s.getD []) ++ '.' :: ' ' :: (rec.abstract_s.getD [])) kw)
    (fun kw => keyword_rows_key getEnt labelsFor kbPar resolve (recDocid rec)
      (rec.title_s.getD [])
      ((rec.title_s.getD []) ++ '.' :: ' ' :: (rec.abstract_s.getD [])) kw)
    (recKeywords rec) acc hnd hrows

theorem map_keywords_foldl_inv (getEnt : Str → Option Entity) (labelsFor : Str → Str)
    (kbPar : Str → List Str) (resolve : Str → Str → Option Candidate) :
    ∀ (records : List Record) (acc : List Row × List (Str × Str)),
      acc.2.Nodup → (∀ r ∈ acc.1, (r.docid, r.keyword) ∈ acc.2) →
      (records.foldl (record_step getEnt labelsFor kbPar resolve) acc).2.Nodup ∧
      (∀ p, p ∈ (records.foldl (record_step getEnt labelsFor kbPar resolve) acc).2 ↔
        p ∈ acc.2 ∨ p ∈ occurrence_pairs records) ∧
      (∀ r ∈ (records.foldl (record_step getEnt labelsFor kbPar resolve) acc).1,
        (r.docid, r.keyword) ∈
          (records.foldl (record_step getEnt labelsFor kbPar resolve) acc).2) := by
  intro records
  induction records with
  | nil =>
    intro acc hnd hrows
    refine ⟨hnd, ?_, hrows⟩
    intro p
    simp [occurrence_pairs]
  | cons rec records ih =>
    intro acc hnd hrows
    rw [List.foldl_cons]
    obtain ⟨s1, s2, s3⟩ := record_step_inv getEnt labelsFor kbPar resolve rec acc hnd hrows
    obtain ⟨h1, h2, h3⟩ := ih (record_step getEnt labelsFor kbPar resolve acc rec) s1 s3
    refine ⟨h1, ?_, h3⟩
    intro p
    rw [h2 p, s2 p]
    have hop : occurrence_pairs (rec :: records) =
        (recKeywords rec).map (fun kw => (recDocid rec, kw)) ++ occurrence_pairs records := by
      simp [occurrence_pairs]
    rw [hop]
    simp only [List.mem_append]
    tauto

/-- **C4** (corrected: the seen-set key is the *raw* keyword string, not its
normalized form).  Within a run a `(document id, raw keyword)` pair is
processed at most once — the processed-pair list is duplicate-free and
contains exactly the input occurrences, and every emitted row's
`(docid, keyword)` key is a processed pair; two occurrences that differ as
raw strings are processed separately even when their normalized forms
coincide. -/
theorem map_keywords_raw_pair_dedup (getEnt : Str → Option Entity) (labelsFor : Str → Str)
    (kbPar : Str → List Str) (resolve : Str → Str → Option Candidate)
    (records : List Record) :
    (map_keywords_aux getEnt labelsFor kbPar resolve records).2.Nodup ∧
    (∀ p, p ∈ (map_keywords_aux getEnt labelsFor kbPar resolve records).2 ↔
      p ∈ occurrence_pairs records) ∧
    (∀ r ∈ map_keywords getEnt labelsFor kbPar resolve records,
      (r.docid, r.keyword) ∈ (map_keywords_aux getEnt labelsFor kbPar resolve records).2) := by
  obtain ⟨h1, h2, h3⟩ := map_keywords_foldl_inv getEnt labelsFor kbPar resolve records
    ([], []) List.nodup_nil (by simp)
  refine ⟨h1, ?_, h3⟩
  intro p
  unfold map_keywords_aux
  rw [h2 p]
  simp

/-- Record in which the same document carries the keywords `AI` and `AI `
(trailing space): distinct raw strings with equal normalized forms. -/
def recDupNorm : Record :=
  ⟨none, none, some ['d'], none, some [['A', 'I'], ['A', 'I', ' ']], none⟩

/-- **C4** counterexample to the claim as stated: both occurrences are
processed and both produce a row, although their normalized forms are equal —
the normalized-duplicate occurrence is *not* dropped. -/
theorem map_keywords_normalized_dup_counterexample :
    (map_keywords (fun _ => none) (fun q => q) (fun _ => []) (fun _ _ => none)
        [recDupNorm]).map (fun r => r.keyword) = [['A', 'I'], ['A', 'I', ' ']] ∧
    normalize_kw ['A', 'I', ' '] = normalize_kw ['A', 'I'] ∧
    (['A', 'I', ' '] : Str) ≠ ['A', 'I'] := by
  refine ⟨rfl, by decide, by decide⟩

/-! ### Bounded retry (`_get`) -/

/-- The retry loop of `_get` over the list of remaining attempt indices: a
failure on any attempt but the last sleeps `0.5 * (attempt + 1)` seconds and
retries; a failure on the last attempt propagates (modelled as `none`).  The
result is paired with the list of backoff delays slept. -/
def getRetryGo {α : Type} (oracle : ℕ → Option α) : List ℕ → Option α × List ℚ
  | [] => (none, [])
  | a :: rest =>
    match oracle a with
    | some d => (some d, [])
    | none =>
      if rest = [] then (none, [])
      else
        let r := getRetryGo oracle rest
        (r.1, ((a : ℚ) + 1) / 2 :: r.2)

/-- `_get` from the source: at most five attempts, indices 0 through 4.  The
attempt outcomes (HTTP success with a well-formed payload versus timeout,
non-2xx status or an error-carrying payload) are the oracle's values. -/
def getRetry {α : Type} (oracle : ℕ → Option α) : Option α × List ℚ :=
  getRetryGo oracle [0, 1, 2, 3, 4]

/-- **C9** (corrected: the backoff schedule is linear — `0.5 * (attempt + 1)`
seconds, i.e. 0.5, 1.0, 1.5, 2.0 — not exponential).  With that amendment:
the request is attempted at most 5 times (the outcome depends only on the
first five attempt results); if all five attempts fail the failure propagates
after the four linear backoff delays; a first success at attempt `i` returns
that result immediately, after exactly the `i` backoff delays of the failed
attempts, independently of the outcomes of any later attempt. -/
theorem getRetry_linear_backoff {α : Type} (oracle : ℕ → Option α) :
    (∀ oracle2 : ℕ → Option α, (∀ j, j ≤ 4 → oracle2 j = oracle j) →
      getRetry oracle2 = getRetry oracle) ∧
    ((∀ j, j ≤ 4 → oracle j = none) →
      (getRetry oracle).1 = none ∧
      (getRetry oracle).2 = [1 / 2, 1, 3 / 2, 2]) ∧
    (∀ i, i ≤ 4 → (∀ j, j < i → oracle j = none) → ∀ d, oracle i = some d →
      (getRetry oracle).1 = some d ∧
      (getRetry oracle).2 = (List.range i).map (fun k => ((k : ℚ) + 1) / 2) ∧
      (∀ oracle2 : ℕ → Option α, (∀ j, j ≤ i → oracle2 j = oracle j) →
        getRetry oracle2 = getRetry oracle)) := by
  refine ⟨?_, ?_, ?_⟩
  · intro oracle2 h
    simp only [getRetry, getRetryGo]
    rw [h 0 (by omega), h 1 (by omega), h 2 (by omega), h 3 (by omega), h 4 (by omega)]
  · intro h
    have h0 := h 0 (by omega)
    have h1 := h 1 (by omega)
    have h2 := h 2 (by omega)
    have h3 := h 3 (by omega)
    have h4 := h 4 (by omega)
    constructor
    · simp [getRetry, getRetryGo, h0, h1, h2, h3, h4]
    · simp [getRetry, getRetryGo, h0, h1, h2, h3, h4]
      norm_num
  · intro i hi hfail d hd
    interval_cases i
    · refine ⟨by simp [getRetry, getRetryGo, hd], by simp [getRetry, getRetryGo, hd], ?_⟩
      intro oracle2 h
      simp only [getRetry, getRetryGo]
      rw [h 0 (by omega), hd]
    · have h0 := hfail 0 (by omega)
      refine ⟨by simp [getRetry, getRetryGo, h0, hd],
        by rw [show List.range 1 = [0] from rfl]
           simp [getRetry, getRetryGo, h0, hd], ?_⟩
      intro oracle2 h
      simp only [getRetry, getRetryGo]
      rw [h 0 (by omega), h 1 (by omega), h0, hd]
    · have h0 := hfail 0 (by omega)
      have h1 := hfail 1 (by omega)
      refine ⟨by simp [getRetry, getRetryGo, h0, h1, hd],
        by rw [show List.range 2 = [0, 1] from rfl]
           simp [getRetry, getRetryGo, h0, h1, hd], ?_⟩
      intro oracle2 h
      simp only [getRetry, getRetryGo]
      rw [h 0 (by omega), h 1 (by omega), h 2 (by omega), h0, h1, hd]
    · have h0 := hfail 0 (by omega)
      have h1 := hfail 1 (by omega)
      have h2 := hfail 2 (by omega)
      refine ⟨by simp [getRetry, getRetryGo, h0, h1, h2, hd],
        by rw [show List.range 3 = [0, 1, 2] from rfl]
           simp [getRetry, getRetryGo, h0, h1, h2, hd], ?_⟩
      intro oracle2 h
      simp only [getRetry, getRetryGo]
      rw [h 0 (by omega), h 1 (by omega), h 2 (by omega), h 3 (by omega), h0, h1, h2, hd]
    · have h0 := hfail 0 (by omega)
      have h1 := hfail 1 (by omega)
      have h2 := hfail 2 (by omega)
      have h3 := hfail 3 (by omega)
      refine ⟨by simp [getRetry, getRetryGo, h0, h1, h2, h3, hd],
        by rw [show List.range 4 = [0, 1, 2, 3] from rfl]
           simp [getRetry, getRetryGo, h0, h1, h2, h3, hd], ?_⟩
      intro oracle2 h
      simp only [getRetry, getRetryGo]
      rw [h 0 (by omega), h 1 (by omega), h 2 (by omega), h 3 (by omega), h 4 (by omega),
        h0, h1, h2, h3, hd]

/-- Attempt oracle failing on attempt 0 and succeeding on attempt 1. -/
def oracleRetryW : ℕ → Option ℕ := fun j => if j = 1 then some 7 else none

/-- **C9** witness: one failure, then success on the second attempt, with a
single 0.5-second backoff. -/
theorem getRetry_linear_backoff_witness :
    ((1 : ℕ) ≤ 4 ∧ (∀ j, j < 1 → oracleRetryW j = none) ∧ oracleRetryW 1 = some 7) ∧
    ((getRetry oracleRetryW).1 = some 7 ∧
      (getRetry oracleRetryW).2 = (List.range 1).map (fun k => ((k : ℚ) + 1) / 2) ∧
      (∀ oracle2 : ℕ → Option ℕ, (∀ j, j ≤ 1 → oracle2 j = oracleRetryW j) →
        getRetry oracle2 = getRetry oracleRetryW)) :=
  ⟨⟨by omega, fun j hj => by interval_cases j; rfl, rfl⟩,
    (getRetry_linear_backoff oracleRetryW).2.2 1 (by omega)
      (fun j hj => by interval_cases j; rfl) 7 rfl⟩

/-- **C9** counterexample to the claim as stated: when every attempt fails,
the backoff delays are 0.5, 1.0, 1.5 and 2.0 seconds — a linear schedule;
there is no constant ratio relating consecutive delays, so the schedule is
not exponential. -/
theorem getRetry_not_exponential_counterexample :
    ∃ s0 s1 s2 s3 : ℚ, (getRetry (fun _ => (none : Option ℕ))).2 = [s0, s1, s2, s3] ∧
      s0 = 1 / 2 ∧
      ¬∃ ratio : ℚ, s1 = ratio * s0 ∧ s2 = ratio * s1 ∧ s3 = ratio * s2 := by
  refine ⟨1 / 2, 1, 3 / 2, 2, ?_, rfl, ?_⟩
  · simp [getRetry, getRetryGo]
    norm_num
  · rintro ⟨ratio, hA, hB, _⟩
    have hr2 : ratio = 2 := by linarith
    rw [hr2] at hB
    norm_num at hB
